import Mathlib

/-
  A shallow embedding of the luacpp binding layer
  (src/include/luacpp.hpp, src/source/luacpp.cpp).

  The embedding models the Lua value stack of one execution context as a
  `List` of runtime values (list position i holds stack slot i + 1; slot 1
  is the bottom of the stack, `lua_gettop` is the list length).  The Lua
  runtime primitives the header wraps (`lua_next`, `lua_tointeger`,
  `lua_getstack`, `luaL_newmetatable`, ...) are modelled as pure functions
  on that stack following the Lua 5.4 reference semantics; the header's own
  functions (`foreach_pair_in_table`, `newuserdata<T>`, the `stack_traits`
  specializations, `impl::info_field_string`, `getfunction`, the capability
  queries) are translated from the source.
-/

namespace Luacpp

/-- A Lua runtime value.  `lua_Number` values are modelled by an exact
rational carrier `Rat`: the stack primitives store and reload numbers
verbatim and perform no floating-point arithmetic, so only injectivity of
the carrier matters.  Reference values (tables, functions, full userdata,
threads) are identified by an id into the runtime's heap. -/
inductive LuaValue where
  | nil
  | boolean (b : Bool)
  | integer (n : Int)
  | number (q : Rat)
  | str (s : String)
  | table (id : Nat)
  | function (id : Nat)
  | userdata (id : Nat)
  | thread (id : Nat)
deriving DecidableEq

/-- The Lua value stack of one execution context; list position `i` models
stack slot `i + 1` (slot 1 = bottom, `lua_gettop` = length). -/
abbrev Stack := List LuaValue

/-- A Lua table object: its key/value pairs, listed in the runtime's
traversal order (the order `lua_next` enumerates them). -/
abbrev Table := List (LuaValue × LuaValue)

/-- `lua::top` (`lua_gettop`): the index of the topmost stack slot. -/
def top (st : Stack) : Nat := st.length

/-- A raw push (`lua_pushnil`, `lua_pushinteger`, ...): append one value on
top of the stack. -/
def push (st : Stack) (v : LuaValue) : Stack := st ++ [v]

/-- Read the value at the (1-based, absolute) stack index `i`. -/
def slot (st : Stack) (i : Nat) : LuaValue := st.getD (i - 1) LuaValue.nil

/-- `lua::remove` (`lua_remove`): delete the element at absolute index `i`,
shifting the elements above it down. -/
def remove (st : Stack) (i : Nat) : Stack := st.take (i - 1) ++ st.drop i

/-- `lua::copy(l, fromIdx)` (`lua_pushvalue`): push a copy of the value at
absolute index `i` onto the top of the stack. -/
def copy (st : Stack) (i : Nat) : Stack := push st (slot st i)

/-- Model of the Lua runtime's table-successor lookup used by `lua_next`:
find the pair whose key is `k` and return the pair after it (`none` when
`k` is the last key or is not a key of the table at all). -/
def findNext : Table → LuaValue → Option (LuaValue × LuaValue)
  | [], _ => none
  | p :: rest, k => if p.1 = k then rest.head? else findNext rest k

/-- The successor pair of key `k` in table `tbl`: a `nil` key starts the
traversal at the first pair. -/
def nextPair (tbl : Table) (k : LuaValue) : Option (LuaValue × LuaValue) :=
  if k = LuaValue.nil then tbl.head? else findNext tbl k

/-- Model of the runtime primitive `lua_next(L, idx)` (wrapped by
`lua::next`): pop the key from the top of the stack; if the table has a
successor pair, push its key and value and report `true`, otherwise push
nothing and report `false`.  `tbl` is the table object addressed by the
(absolutized) table index. -/
def lua_next (tbl : Table) (st : Stack) : Bool × Stack :=
  let k := st.getD (st.length - 1) LuaValue.nil
  let st1 := st.take (st.length - 1)
  match nextPair tbl k with
  | none => (false, st1)
  | some kv => (true, st1 ++ [kv.1, kv.2])

/-- The body of the `while` loop of `foreach_pair_in_table`, entered with
the freshly pushed key/value pair on top of stack `st1`: record
`top`/`keyIdx`/`valueIdx`, invoke the callback, remove the value, and if
the key is no longer the top move a copy of it there and remove the stale
original.  The callback is an arbitrary invocable: it threads its own
closure state `σ` and may rewrite the whole stack. -/
def foreachBody {σ : Type _} (cb : σ → Stack → Nat → Nat → σ × Stack)
    (s : σ) (st1 : Stack) : σ × Stack :=
  let t := top st1
  let keyIdx := t - 1
  let valIdx := t
  let r := cb s st1 keyIdx valIdx
  let st3 := remove r.2 valIdx
  let st4 := if top st3 ≠ keyIdx then remove (copy st3 keyIdx) keyIdx else st3
  (r.1, st4)

/-- The `while (next(...) != 0)` loop of `foreach_pair_in_table`, with an
explicit fuel bounding the number of advances (the loop of the source is
not structurally recursive; every theorem below supplies enough fuel that
the loop exits through `lua_next` returning `false`, never through the
fuel). -/
def foreachLoop {σ : Type _} (tbl : Table) (cb : σ → Stack → Nat → Nat → σ × Stack) :
    Nat → σ → Stack → σ × Stack
  | 0, s, st => (s, st)
  | fuel + 1, s, st =>
    let n := lua_next tbl st
    if n.1 then
      let r := foreachBody cb s n.2
      foreachLoop tbl cb fuel r.1 r.2
    else (s, n.2)

/-- `lua::foreach_pair_in_table(_lua, _tableIndex, _fn)`: push `nil` as the
initial key and run the traversal loop.  `tbl` is the table object that the
absolutized `_tableIndex` addresses (the source absolutizes the index once
and thereafter only hands it to `lua_next`); `s` is the callback's own
closure state and `st` the stack below the traversal. -/
def foreach_pair_in_table {σ : Type _} (tbl : Table)
    (cb : σ → Stack → Nat → Nat → σ × Stack) (s : σ) (st : Stack) : σ × Stack :=
  foreachLoop tbl cb (tbl.length + 1) s (push st LuaValue.nil)

/-- Specification-level recursion for the traversal loop: process the listed
pairs in order; for each pair the callback sees the accumulated stack with
the key and value appended on top, and whatever the callback leaves above
the value position stays on the accumulated stack afterwards. -/
def runPairs {σ : Type _} (cb : σ → Stack → Nat → Nat → σ × Stack) :
    σ → Stack → Table → σ × Stack
  | s, acc, [] => (s, acc)
  | s, acc, kv :: rest =>
    let st := acc ++ [kv.1, kv.2]
    let r := cb s st (st.length - 1) st.length
    runPairs cb r.1 (acc ++ r.2.drop st.length) rest

/-- Instrument a callback so that it also records, in its closure state, the
key/value pair found at the stack positions the protocol hands it — the
observable "one invocation per pair" trace of a C++ callback with a
capturing closure.  The stack behaviour of the callback is unchanged. -/
def logCb {σ : Type _} (cb : σ → Stack → Nat → Nat → σ × Stack) :
    σ × Table → Stack → Nat → Nat → (σ × Table) × Stack :=
  fun p st kIdx vIdx =>
    let r := cb p.1 st kIdx vIdx
    ((r.1, p.2 ++ [(slot st kIdx, slot st vIdx)]), r.2)

/-- `static_cast` between C integer types, modelled modularly (two's
complement, the C++20 semantics): reduce to width `w`, interpreting the top
bit as a sign when `signed` is set.  `lua_Integer` is the 64-bit signed
instance. -/
def intCast (signed : Bool) (w : Nat) (x : Int) : Int :=
  if signed then (x + 2 ^ (w - 1)) % 2 ^ w - 2 ^ (w - 1) else x % 2 ^ w

/-- Value of a non-empty all-digit character sequence, `none` otherwise. -/
def decVal? (l : List Char) : Option Nat :=
  if l ≠ [] ∧ l.all (fun c => c.isDigit) then
    some (l.foldl (fun a c => a * 10 + (c.toNat - 48)) 0)
  else none

/-- Model of the Lua runtime's string→number coercion, restricted to
optional-sign decimal integer literals; other lexical forms (hex, floats,
surrounding spaces) are not modelled and yield `none`.  No theorem below
depends on which strings coerce. -/
def luaStr2Int (s : String) : Option Int :=
  match s.toList with
  | '-' :: rest => (decVal? rest).map (fun n => -(n : Int))
  | '+' :: rest => (decVal? rest).map (fun n => (n : Int))
  | l => (decVal? l).map (fun n => (n : Int))

/-- String→number coercion at the `lua_Number` carrier. -/
def luaStr2Num (s : String) : Option Rat :=
  (luaStr2Int s).map (fun n => (n : Rat))

/-- The values `lua_tonumberx` accepts, with the number they convert to:
integers, numbers, and coercible strings; every other value is rejected. -/
def tonumberOpt : LuaValue → Option Rat
  | LuaValue.integer n => some (n : Rat)
  | LuaValue.number q => some q
  | LuaValue.str s => luaStr2Num s
  | _ => none

/-- Model of `lua_tonumber(L, i)`: the converted number, or `0` when the
slot holds no value convertible to a number (`lua_tonumberx` with a null
`isnum` out-parameter). -/
def lua_tonumber (v : LuaValue) : Rat := (tonumberOpt v).getD 0

/-- The values `lua_tointegerx` accepts: integers; numbers with an exact
integral value representable in the 64-bit `lua_Integer`; coercible
strings subject to the same restriction. -/
def tointegerOpt : LuaValue → Option Int
  | LuaValue.integer n => some n
  | LuaValue.number q =>
    if q.den = 1 ∧ -(2 ^ 63) ≤ q.num ∧ q.num < 2 ^ 63 then some q.num else none
  | LuaValue.str s =>
    match luaStr2Num s with
    | some q => if q.den = 1 ∧ -(2 ^ 63) ≤ q.num ∧ q.num < 2 ^ 63 then some q.num else none
    | none => none
  | _ => none

/-- Model of `lua_tointeger(L, i)`: the converted integer, or `0` when the
slot holds no value convertible to an integer (`lua_tointegerx` with a null
`isnum` out-parameter). -/
def lua_tointeger (v : LuaValue) : Int := (tointegerOpt v).getD 0

/-- Model of `lua_toboolean`: every value is truthy except `nil` and
`false`. -/
def lua_toboolean : LuaValue → Bool
  | LuaValue.nil => false
  | LuaValue.boolean b => b
  | _ => true

/-- Model of `lua_tolstring`: the byte content and length of a string slot;
a number slot is converted to its textual form; any other value yields a
null pointer with length `0` (modelled as `none`). -/
def lua_tolstring : LuaValue → Option String
  | LuaValue.str s => some s
  | LuaValue.integer n => some (toString n)
  | LuaValue.number q => some (toString q)
  | _ => none

/-- `stack_traits<T>` for integral `T` (and the `lua_Integer`
specialization, which is the `signed`/`w = 64` instance).  `push` casts the
value to `lua_Integer` and pushes it; `to` reads `lua_tointeger` and casts
back to `T`.  The out-parameter write of the source's `void to(...)` is
modelled by returning the stored value: there is no failure channel. -/
def stack_traits_integral.push (sgn : Bool) (w : Nat) (st : Stack) (x : Int) : Stack :=
  Luacpp.push st (LuaValue.integer (intCast true 64 x))

/-- `stack_traits<T>::to` for integral `T`: see `stack_traits_integral.push`. -/
def stack_traits_integral.to (sgn : Bool) (w : Nat) (st : Stack) (i : Nat) : Int :=
  intCast sgn w (lua_tointeger (slot st i))

/-- `stack_traits<lua_Number>::push`: push the number unchanged. -/
def stack_traits_number.push (st : Stack) (q : Rat) : Stack :=
  Luacpp.push st (LuaValue.number q)

/-- `stack_traits<lua_Number>::to`: `_value = lua_tonumber(_lua, _index)`. -/
def stack_traits_number.to (st : Stack) (i : Nat) : Rat :=
  lua_tonumber (slot st i)

/-- `stack_traits<bool>::push` (`lua_pushboolean`). -/
def stack_traits_bool.push (st : Stack) (b : Bool) : Stack :=
  Luacpp.push st (LuaValue.boolean b)

/-- `stack_traits<bool>::to`: `_value = lua_toboolean(_lua, _index)`. -/
def stack_traits_bool.to (st : Stack) (i : Nat) : Bool :=
  lua_toboolean (slot st i)

/-- `stack_traits<std::string_view>::push` (`lua_pushlstring` with the
view's data and size). -/
def stack_traits_string_view.push (st : Stack) (s : String) : Stack :=
  Luacpp.push st (LuaValue.str s)

/-- `stack_traits<std::string_view>::to`: `lua_tolstring` then
`string_view(_str, _len)`; a null pointer with length 0 gives the empty
view. -/
def stack_traits_string_view.to (st : Stack) (i : Nat) : String :=
  (lua_tolstring (slot st i)).getD ""

/-- `impl::check_field`: `(field & checkFor) == checkFor`.  `info_field`
masks are modelled by their `uint16` numeric values (`function_on_stack` =
0x1, `f` = 0x2, `l` = 0x4, `n` = 0x8, `r` = 0x10, `S` = 0x20, `t` = 0x40,
`u` = 0x80, `L` = 0x100). -/
def check_field (field checkFor : Nat) : Bool := field &&& checkFor == checkFor

/-- `impl::info_field_char`: the single-character code of one `info_field`
bit, `'\0'` on anything that is not one of the nine named bits. -/
def info_field_char (f : Nat) : Char :=
  if f = 1 then '>'
  else if f = 2 then 'f'
  else if f = 256 then 'L'
  else if f = 4 then 'l'
  else if f = 8 then 'n'
  else if f = 16 then 'r'
  else if f = 32 then 'S'
  else if f = 64 then 't'
  else if f = 128 then 'u'
  else Char.ofNat 0

/-- `impl::info_field_writer`: a 16-byte zero-initialized buffer with a
write iterator; `written` is the sequence of characters appended so far
(the iterator sits right after them). -/
structure info_field_writer where
  written : List Char
deriving DecidableEq

/-- `info_field_writer::append`: write one character at the iterator and
advance it (the source asserts the buffer is not full). -/
def info_field_writer.append (w : info_field_writer) (c : Char) : info_field_writer :=
  info_field_writer.mk (w.written ++ [c])

/-- `info_field_writer::append_if`: append the field's code character when
the field is requested by the mask and its code is not `'\0'`. -/
def info_field_writer.append_if (w : info_field_writer) (fields hasField : Nat) :
    info_field_writer :=
  if check_field fields hasField then
    if info_field_char hasField ≠ Char.ofNat 0 then w.append (info_field_char hasField) else w
  else w

/-- `info_field_writer::as_array`: the full 16-byte buffer, i.e. the
written characters followed by the remaining zero-initialized bytes. -/
def info_field_writer.as_array (w : info_field_writer) : List Char :=
  w.written ++ List.replicate (16 - w.written.length) (Char.ofNat 0)

/-- `impl::info_field_string`: append each field's code in the source's
fixed order (`>`, `f`, `l`, `n`, `r`, `S`, `t`, `u`, `L`) and return the
buffer. -/
def info_field_string (fields : Nat) : List Char :=
  ((((((((((info_field_writer.mk []).append_if fields 1).append_if fields 2).append_if
    fields 4).append_if fields 8).append_if fields 16).append_if fields 32).append_if
    fields 64).append_if fields 128).append_if fields 256).as_array

/-- The query string actually handed to `lua_getinfo`: the buffer's
`data()` read as a C string, i.e. up to the first NUL byte. -/
def info_query (fields : Nat) : List Char :=
  (info_field_string fields).takeWhile (fun c => c ≠ Char.ofNat 0)

/-- The nine `info_field` bits with their codes, in the encoder's canonical
order. -/
def fieldTable : List (Nat × Char) :=
  [(1, '>'), (2, 'f'), (4, 'l'), (8, 'n'), (16, 'r'), (32, 'S'), (64, 't'), (128, 'u'),
    (256, 'L')]

/-- `lua_Debug`, reduced to the one piece of state these theorems need: the
activation record captured by `lua_getstack` (the id of the function
running at the requested level), when one was captured. -/
structure debug_info where
  frame : Option Nat
deriving DecidableEq

/-- Model of the runtime primitive `lua_getstack(L, level, ar)`: the call
stack is the list of active function ids, innermost first; a level inside
it yields its function id, anything else fails.  The primitive never
touches the value stack. -/
def lua_getstack (frames : List Nat) (level : Int) : Option Nat :=
  if 0 ≤ level ∧ level.toNat < frames.length then some (frames.getD level.toNat 0) else none

/-- `lua::getstack(_lua, _level, _outInfo)`: true and a filled record on
success; false with the record untouched otherwise. -/
def getstack (frames : List Nat) (level : Int) (info : debug_info) : Bool × debug_info :=
  match lua_getstack frames level with
  | some fid => (true, debug_info.mk (some fid))
  | none => (false, info)

/-- The option characters `lua_getinfo` accepts (Lua 5.4's `auxgetinfo`). -/
def infoFieldValidChar (c : Char) : Bool :=
  c ∈ ['>', 'f', 'l', 'n', 'r', 'S', 't', 'u', 'L']

/-- Model of the runtime primitive `lua_getinfo(L, what, ar)` on a record
previously filled by `lua_getstack`: the status is 1 iff every option
character is known; a `what` containing `'f'` additionally pushes the
frame's function onto the value stack. -/
def lua_getinfo (st : Stack) (what : List Char) (info : debug_info) : Bool × Stack :=
  (what.all infoFieldValidChar,
    if what.contains 'f' then st ++ [LuaValue.function (info.frame.getD 0)] else st)

/-- `lua::getinfo(_lua, _fields, _inOutInfo)`: encode the mask with
`impl::info_field_string` and call `lua_getinfo` with the buffer's
`data()`. -/
def getinfo_fields (st : Stack) (fields : Nat) (info : debug_info) : Bool × Stack :=
  lua_getinfo st (info_query fields) info

/-- `lua::getfunction(_lua, _level, _inOutInfo)`: fetch the stack level,
then request `info_field::function` (which pushes the function at that
level); report `false` as soon as either step fails.  The result pairs the
returned flag with the value stack after the call. -/
def getfunction (frames : List Nat) (level : Int) (st : Stack) : Bool × Stack :=
  let g := getstack frames level (debug_info.mk none)
  if g.1 = false then (false, st)
  else
    let r := getinfo_fields st 2 g.2
    if r.1 = false then (false, r.2) else (true, r.2)

/-- The host types appearing in the built-in `stack_traits`
specializations, plus `unregistered`, a stand-in for any type with no
specialization at all.  `integral` covers the `std::is_integral` partial
specialization (and the `lua_Integer` one), `floating` the
`std::is_floating_point` one (and `lua_Number`). -/
inductive HostType where
  | integral (signed : Bool) (width : Nat)
  | floating (width : Nat)
  | boolean
  | nil_t
  | fail_t
  | char_ptr
  | string_view
  | std_string
  | cfunction
  | unregistered (id : Nat)
deriving DecidableEq

/-- The extra-argument types a dispatch can receive (`int` is the upvalue
count of the `lua_CFunction` closure overload). -/
inductive ExtraArg where
  | intArg
  | otherArg (id : Nat)
deriving DecidableEq

/-- The return type of a `push` member (`decltype` of the dispatch): most
return `void`, the string pushes return the interned `const char*`. -/
inductive PushRet where
  | unitRet
  | charPtrRet
deriving DecidableEq

/-- Whether `stack_traits<T>::push(state_ptr, T, Extras...)` is well-formed
for the given type and extra-argument list, and with which return type —
the expression `is_pushable` SFINAE-probes. -/
def pushDispatch (T : HostType) (es : List ExtraArg) : Option PushRet :=
  match T with
  | HostType.integral _ _ => match es with | [] => some PushRet.unitRet | _ => none
  | HostType.floating _ => match es with | [] => some PushRet.unitRet | _ => none
  | HostType.boolean => match es with | [] => some PushRet.unitRet | _ => none
  | HostType.nil_t => match es with | [] => some PushRet.unitRet | _ => none
  | HostType.fail_t => match es with | [] => some PushRet.unitRet | _ => none
  | HostType.char_ptr => match es with | [] => some PushRet.charPtrRet | _ => none
  | HostType.string_view => match es with | [] => some PushRet.charPtrRet | _ => none
  | HostType.std_string => match es with | [] => some PushRet.charPtrRet | _ => none
  | HostType.cfunction =>
    match es with
    | [] => some PushRet.unitRet
    | [ExtraArg.intArg] => some PushRet.unitRet
    | _ => none
  | HostType.unregistered _ => none

/-- Whether `stack_traits<T>::to(state_ptr, int, T&, Extras...)` is
well-formed — the expression `is_pullable` SFINAE-probes.  The two
sentinels `nil_t` and `fail_t` have push-only entries. -/
def toDispatch (T : HostType) (es : List ExtraArg) : Option Unit :=
  match T with
  | HostType.integral _ _ => match es with | [] => some () | _ => none
  | HostType.floating _ => match es with | [] => some () | _ => none
  | HostType.boolean => match es with | [] => some () | _ => none
  | HostType.char_ptr => match es with | [] => some () | _ => none
  | HostType.string_view => match es with | [] => some () | _ => none
  | HostType.std_string => match es with | [] => some () | _ => none
  | HostType.cfunction => match es with | [] => some () | _ => none
  | HostType.nil_t => none
  | HostType.fail_t => none
  | HostType.unregistered _ => none

/-- `lua::is_pushable<T, ExtraArgs...>`: true exactly when the `push`
dispatch is well-formed. -/
def is_pushable (T : HostType) (es : List ExtraArg) : Bool := (pushDispatch T es).isSome

/-- `lua::is_pullable<T, ExtraArgs...>`: true exactly when the `to`
dispatch is well-formed. -/
def is_pullable (T : HostType) (es : List ExtraArg) : Bool := (toDispatch T es).isSome

/-- A host type as `newuserdata<T>` sees it: the deterministic per-type
name `userdata_type_name<T>()` computed from the signature string, the
allocation size `sizeof(T)`, and the two trait bits the source branches
on. -/
structure TypeDesc where
  name : String
  size : Nat
  triviallyDestructible : Bool
  triviallyConstructible : Bool
deriving DecidableEq

/-- How the allocated block's bytes are initialized before the pointer is
returned. -/
inductive InitKind where
  | valueInit
  | zeroInit
  | uninit
deriving DecidableEq

/-- The runtime-managed block `newuserdata<T>` returns: its size and how
its contents were initialized. -/
structure Block where
  size : Nat
  init : InitKind
deriving DecidableEq

/-- The per-context Lua registry as the userdata lifecycle sees it:
`registered` is the set of type names that own a metatable
(`LUA_REGISTRYINDEX[tname]`), `created` the log of `__gc` finalizer
installations (the "registration hook counter" of a test double). -/
structure UDRegistry where
  registered : List String
  created : List String
deriving DecidableEq

/-- Model of `luaL_newmetatable(L, tname)`: if the registry already maps
`tname` to its metatable, push it and report 0 (modelled `false`);
otherwise create and register a fresh metatable and report 1
(`true`). -/
def luaL_newmetatable (r : UDRegistry) (n : String) : Bool × UDRegistry :=
  if n ∈ r.registered then (false, r)
  else (true, UDRegistry.mk (n :: r.registered) r.created)

/-- The `lua_pushcfunction` + `lua_setfield(..., "__gc")` pair that installs
the destructor finalizer into a freshly created metatable. -/
def installGC (r : UDRegistry) (n : String) : UDRegistry :=
  UDRegistry.mk r.registered (r.created ++ [n])

/-- `lua::newuserdata<T>(_lua)`: allocate `sizeof(T)` bytes of
runtime-managed memory; for a non-trivially-destructible `T` fetch or
create the per-type-name metatable, installing the `__gc` destructor only
when the metatable is freshly created, and attach it to the userdata; then
placement-`new(_ud) T{}` when `T` is not trivially constructible, and
otherwise return the block as-is (no initialization). -/
def newuserdata (T : TypeDesc) (r : UDRegistry) : UDRegistry × Block :=
  let r1 :=
    if !T.triviallyDestructible then
      let p := luaL_newmetatable r T.name
      if p.1 then installGC p.2 T.name else p.2
    else r
  (r1, Block.mk T.size (if !T.triviallyConstructible then InitKind.valueInit else InitKind.uninit))

/-- A sequence of `n` successive `newuserdata<T>` calls on the same runtime
context. -/
def allocN (T : TypeDesc) : Nat → UDRegistry → UDRegistry
  | 0, r => r
  | n + 1, r => allocN T n (newuserdata T r).1

/-- Modelled from the spec: the initialization §4.3 promises —
"default-constructs (or zero-initializes if `T` has no meaningful
construction) the value in place".  Stated for comparison with what
`newuserdata` actually does. -/
def spec_newuserdata_init (T : TypeDesc) : InitKind :=
  if T.triviallyConstructible then InitKind.zeroInit else InitKind.valueInit

/-
  List bookkeeping lemmas for absolute stack indices.
-/

theorem take_len_concat {α : Type _} (l₁ l₂ : List α) : (l₁ ++ l₂).take l₁.length = l₁ := by
  induction l₁ with
  | nil => simp
  | cons a l ih => simp [ih]

theorem drop_len_concat {α : Type _} (l₁ l₂ : List α) : (l₁ ++ l₂).drop l₁.length = l₂ := by
  induction l₁ with
  | nil => simp
  | cons a l ih => simp [ih]

theorem getD_len_concat {α : Type _} (l₁ : List α) (a : α) (l₂ : List α) (d : α) :
    (l₁ ++ a :: l₂).getD l₁.length d = a := by
  induction l₁ with
  | nil => rfl
  | cons b l ih => simpa using ih

/-- Removing the element at index `l₁.length + 1` of `l₁ ++ a :: l₂`
deletes exactly the `a`. -/
theorem remove_mid (l₁ : Stack) (a : LuaValue) (l₂ : Stack) :
    remove (l₁ ++ a :: l₂) (l₁.length + 1) = l₁ ++ l₂ := by
  unfold remove
  have h1 : l₁.length + 1 - 1 = l₁.length := rfl
  have h2 : (l₁ ++ a :: l₂).take l₁.length = l₁ := by
    simpa using take_len_concat l₁ (a :: l₂)
  have h3 : (l₁ ++ a :: l₂).drop (l₁.length + 1) = l₂ := by
    have := drop_len_concat (l₁ ++ [a]) l₂
    simpa using this
  rw [h1, h2, h3]

/-- Removing the element at index `l₁.length + 2` of `l₁ ++ k :: v :: l₂`
deletes exactly the `v`. -/
theorem remove_mid2 (l₁ : Stack) (k v : LuaValue) (l₂ : Stack) :
    remove (l₁ ++ k :: v :: l₂) (l₁.length + 2) = l₁ ++ k :: l₂ := by
  have h := remove_mid (l₁ ++ [k]) v l₂
  simpa using h

theorem getD_len_concat2 (l₁ : Stack) (k v : LuaValue) (l₂ : Stack) (d : LuaValue) :
    (l₁ ++ k :: v :: l₂).getD (l₁.length + 1) d = v := by
  have h := getD_len_concat (l₁ ++ [k]) v l₂ d
  simpa using h

theorem drop_mid2 (l₁ : Stack) (k v : LuaValue) (l₂ : Stack) :
    (l₁ ++ k :: v :: l₂).drop (l₁.length + 2) = l₂ := by
  have h := drop_len_concat (l₁ ++ [k, v]) l₂
  simpa using h

/-
  C3 / C4: the userdata lifecycle manager.
-/

/-- C3 (amended): `newuserdata<T>` returns a runtime-managed block of size
`sizeof(T)`; it value-initializes (`new(_ud) T{}`) the block when `T` is
not trivially constructible, and for a trivially constructible `T` returns
the block without initializing it at all. -/
theorem newuserdata_block_spec (T : TypeDesc) (r : UDRegistry) :
    (newuserdata T r).2 =
      Block.mk T.size
        (if T.triviallyConstructible then InitKind.uninit else InitKind.valueInit) := by
  cases hc : T.triviallyConstructible <;> simp [newuserdata, hc]

/-- C3 (counterexample): for a trivially constructible host type the block
comes back uninitialized, while the claim promises zero-initialization. -/
theorem newuserdata_init_counterexample :
    (newuserdata (TypeDesc.mk "int" 4 true true) (UDRegistry.mk [] [])).2.init =
        InitKind.uninit ∧
      spec_newuserdata_init (TypeDesc.mk "int" 4 true true) = InitKind.zeroInit ∧
      InitKind.uninit ≠ InitKind.zeroInit := by
  exact ⟨rfl, rfl, by decide⟩

theorem newuserdata_reuses (T : TypeDesc) (r : UDRegistry)
    (h : T.name ∈ r.registered) : (newuserdata T r).1 = r := by
  cases hd : T.triviallyDestructible <;>
    simp [newuserdata, luaL_newmetatable, hd, h]

theorem allocN_reuses (T : TypeDesc) (n : Nat) (r : UDRegistry)
    (h : T.name ∈ r.registered) : allocN T n r = r := by
  induction n with
  | zero => rfl
  | succ n ih => simp [allocN, newuserdata_reuses T r h, ih]

theorem newuserdata_creates (T : TypeDesc) (r : UDRegistry)
    (hd : T.triviallyDestructible = false) (h : T.name ∉ r.registered) :
    (newuserdata T r).1 = UDRegistry.mk (T.name :: r.registered) (r.created ++ [T.name]) := by
  simp [newuserdata, luaL_newmetatable, installGC, hd, h]

/-- C4: for a non-trivially-destructible host type, a sequence of
`newuserdata<T>` calls on a context whose registry does not yet know the
type's name installs the `__gc` finalizer descriptor exactly once — the
first call creates and registers the per-type-name metatable, every later
call finds the name registered and reuses it unchanged. -/
theorem newuserdata_finalizer_once (T : TypeDesc) (r : UDRegistry) (n : Nat)
    (hd : T.triviallyDestructible = false) (hr : T.name ∉ r.registered) (hn : 0 < n) :
    (allocN T n r).created.count T.name = r.created.count T.name + 1 ∧
      T.name ∈ (allocN T n r).registered ∧
      (∀ r' : UDRegistry, T.name ∈ r'.registered → (newuserdata T r').1 = r') := by
  obtain ⟨m, rfl⟩ : ∃ m, n = m + 1 := ⟨n - 1, by omega⟩
  have h1 : (newuserdata T r).1 =
      UDRegistry.mk (T.name :: r.registered) (r.created ++ [T.name]) :=
    newuserdata_creates T r hd hr
  have hmem : T.name ∈ ((newuserdata T r).1).registered := by
    rw [h1]; exact List.mem_cons_self _ _
  have h2 : allocN T (m + 1) r = (newuserdata T r).1 := by
    simp [allocN, allocN_reuses T m _ hmem]
  refine ⟨?_, ?_, fun r' h' => newuserdata_reuses T r' h'⟩
  · rw [h2, h1]
    simp [List.count_append]
  · rw [h2]; exact hmem

/-- C4 (witness): two allocations of one concrete non-trivially-destructible
type on a fresh registry. -/
theorem newuserdata_finalizer_once_witness :
    (allocN (TypeDesc.mk "Foo" 8 false false) 2 (UDRegistry.mk [] [])).created.count "Foo" =
        (UDRegistry.mk [] []).created.count "Foo" + 1 ∧
      "Foo" ∈ (allocN (TypeDesc.mk "Foo" 8 false false) 2 (UDRegistry.mk [] [])).registered ∧
      (∀ r' : UDRegistry, "Foo" ∈ r'.registered →
        (newuserdata (TypeDesc.mk "Foo" 8 false false) r').1 = r') :=
  newuserdata_finalizer_once (TypeDesc.mk "Foo" 8 false false) (UDRegistry.mk [] []) 2
    rfl (by simp) (by omega)

/-
  C5: the capability queries.
-/

/-- C5: `is_pushable` / `is_pullable` hold exactly when the corresponding
`stack_traits` dispatch is well-formed; both are false for a type with no
registry entry, `is_pushable` is true for every built-in entry (signed
integrals, floating-point, boolean, the `nil` sentinel, borrowed text view,
owned string, C string pointer, C function pointer — also with an upvalue
count — and the `fail` sentinel), and `is_pullable` is true for every
built-in entry that defines `to`, which is all of them except the two
push-only sentinels `nil_t` and `fail_t`. -/
theorem capability_queries_spec :
    (∀ (T : HostType) (es : List ExtraArg), is_pushable T es = (pushDispatch T es).isSome) ∧
    (∀ (T : HostType) (es : List ExtraArg), is_pullable T es = (toDispatch T es).isSome) ∧
    (∀ (sgn : Bool) (w : Nat), is_pushable (HostType.integral sgn w) [] = true) ∧
    (∀ w : Nat, is_pushable (HostType.floating w) [] = true) ∧
    is_pushable HostType.boolean [] = true ∧
    is_pushable HostType.nil_t [] = true ∧
    is_pushable HostType.fail_t [] = true ∧
    is_pushable HostType.char_ptr [] = true ∧
    is_pushable HostType.string_view [] = true ∧
    is_pushable HostType.std_string [] = true ∧
    is_pushable HostType.cfunction [] = true ∧
    is_pushable HostType.cfunction [ExtraArg.intArg] = true ∧
    (∀ (id : Nat) (es : List ExtraArg), is_pushable (HostType.unregistered id) es = false) ∧
    (∀ (sgn : Bool) (w : Nat), is_pullable (HostType.integral sgn w) [] = true) ∧
    (∀ w : Nat, is_pullable (HostType.floating w) [] = true) ∧
    is_pullable HostType.boolean [] = true ∧
    is_pullable HostType.char_ptr [] = true ∧
    is_pullable HostType.string_view [] = true ∧
    is_pullable HostType.std_string [] = true ∧
    is_pullable HostType.cfunction [] = true ∧
    is_pullable HostType.nil_t [] = false ∧
    is_pullable HostType.fail_t [] = false ∧
    (∀ (id : Nat) (es : List ExtraArg), is_pullable (HostType.unregistered id) es = false) :=
  ⟨fun T es => rfl, fun T es => rfl, fun sgn w => rfl, fun w => rfl, rfl, rfl, rfl, rfl, rfl,
    rfl, rfl, rfl, fun id es => rfl, fun sgn w => rfl, fun w => rfl, rfl, rfl, rfl, rfl, rfl,
    rfl, rfl, fun id es => rfl⟩

/-
  C7 / C10: the built-in stack_traits conversions.
-/

/-- `intCast` at width `w` is the identity on values already in the signed
range of width `w`. -/
theorem intCast_eq_self (w : Nat) (x : Int) (hw : 0 < w)
    (h1 : -(2 ^ (w - 1)) ≤ x) (h2 : x < 2 ^ (w - 1)) : intCast true w x = x := by
  obtain ⟨w', rfl⟩ : ∃ w', w = w' + 1 := ⟨w - 1, by omega⟩
  unfold intCast
  simp only [if_pos, Nat.add_sub_cancel] at *
  have hp : (0 : Int) < 2 ^ w' := by positivity
  have h2w : (2 : Int) ^ (w' + 1) = 2 ^ w' + 2 ^ w' := by
    rw [pow_succ]; ring
  have h0 : 0 ≤ x + 2 ^ w' := by linarith
  have hlt : x + 2 ^ w' < 2 ^ (w' + 1) := by rw [h2w]; linarith
  rw [Int.emod_eq_of_lt h0 hlt]
  ring

/-- `intCast` maps `0` to `0` at every positive width. -/
theorem intCast_zero (sgn : Bool) (w : Nat) (hw : 0 < w) : intCast sgn w 0 = 0 := by
  cases sgn with
  | false => simp [intCast]
  | true =>
    have hp : (0 : Int) < 2 ^ (w - 1) := by positivity
    have := intCast_eq_self w 0 hw (by linarith) hp
    simpa using this

/-- The slot at the top index of a freshly pushed stack holds the pushed
value. -/
theorem slot_push_top (st : Stack) (v : LuaValue) : slot (push st v) (top (push st v)) = v := by
  have h : (st ++ [v]).getD st.length LuaValue.nil = v := getD_len_concat st v [] LuaValue.nil
  simp [slot, push, top, h]

/-- C7: pulling immediately after pushing at the same (top) stack position
round-trips every built-in host type — signed integrals of any width up to
64 bits over their whole value range (including the extreme magnitudes),
`lua_Number` values exactly (the push/pull pair stores and reloads the
number, performing no arithmetic on it), booleans, and text views
(including the empty text). -/
theorem builtin_roundtrip :
    (∀ (w : Nat) (x : Int) (st : Stack), 0 < w → w ≤ 64 →
        -(2 ^ (w - 1)) ≤ x → x < 2 ^ (w - 1) →
        stack_traits_integral.to true w (stack_traits_integral.push true w st x)
          (top (stack_traits_integral.push true w st x)) = x) ∧
    (∀ (q : Rat) (st : Stack),
        stack_traits_number.to (stack_traits_number.push st q)
          (top (stack_traits_number.push st q)) = q) ∧
    (∀ (b : Bool) (st : Stack),
        stack_traits_bool.to (stack_traits_bool.push st b)
          (top (stack_traits_bool.push st b)) = b) ∧
    (∀ (s : String) (st : Stack),
        stack_traits_string_view.to (stack_traits_string_view.push st s)
          (top (stack_traits_string_view.push st s)) = s) := by
  refine ⟨?_, ?_, ?_, ?_⟩
  · intro w x st hw hw64 h1 h2
    have hcast64 : intCast true 64 x = x := by
      have hle : (2 : Int) ^ (w - 1) ≤ 2 ^ 63 := by
        apply pow_le_pow_right (by norm_num)
        omega
      exact intCast_eq_self 64 x (by omega) (by push_cast; linarith) (by push_cast; linarith)
    have hslot := slot_push_top st (LuaValue.integer (intCast true 64 x))
    unfold stack_traits_integral.to stack_traits_integral.push at *
    rw [hslot, hcast64]
    simp only [lua_tointeger, tointegerOpt, Option.getD_some]
    exact intCast_eq_self w x hw h1 h2
  · intro q st
    have hslot := slot_push_top st (LuaValue.number q)
    unfold stack_traits_number.to stack_traits_number.push at *
    rw [hslot]
    rfl
  · intro b st
    have hslot := slot_push_top st (LuaValue.boolean b)
    unfold stack_traits_bool.to stack_traits_bool.push at *
    rw [hslot]
    rfl
  · intro s st
    have hslot := slot_push_top st (LuaValue.str s)
    unfold stack_traits_string_view.to stack_traits_string_view.push at *
    rw [hslot]
    rfl

/-- C7 (witness): the round trips at `int64` minimum, a non-integral
number, `true`, and the empty text. -/
theorem builtin_roundtrip_witness :
    stack_traits_integral.to true 64 (stack_traits_integral.push true 64 [] (-(2 ^ 63)))
        (top (stack_traits_integral.push true 64 [] (-(2 ^ 63)))) = -(2 ^ 63) ∧
      stack_traits_number.to (stack_traits_number.push [] (1 / 2))
        (top (stack_traits_number.push [] (1 / 2))) = 1 / 2 ∧
      stack_traits_bool.to (stack_traits_bool.push [] true)
        (top (stack_traits_bool.push [] true)) = true ∧
      stack_traits_string_view.to (stack_traits_string_view.push [] "")
        (top (stack_traits_string_view.push [] "")) = "" :=
  ⟨builtin_roundtrip.1 64 (-(2 ^ 63)) [] (by norm_num) (by norm_num) (by norm_num)
      (by norm_num),
    builtin_roundtrip.2.1 (1 / 2) [], builtin_roundtrip.2.2.1 true [],
    builtin_roundtrip.2.2.2 "" []⟩

/-- C10: when a stack slot holds a value the runtime cannot convert to a
number, the built-in numeric `to` operations store `0` into the output —
they return plainly (they are total functions into the host type, the
embedding of the source's `void` out-parameter protocol) and expose no
failure channel. -/
theorem pull_nonnumeric_zero (sgn : Bool) (w : Nat) (st : Stack) (i : Nat)
    (hw : 0 < w) (h : tonumberOpt (slot st i) = none) :
    stack_traits_integral.to sgn w st i = 0 ∧ stack_traits_number.to st i = 0 := by
  have hti : tointegerOpt (slot st i) = none := by
    cases hv : slot st i <;> rw [hv] at h <;> simp [tonumberOpt] at h <;>
      simp [tointegerOpt, h]
  constructor
  · unfold stack_traits_integral.to lua_tointeger
    rw [hti]
    simpa using intCast_zero sgn w hw
  · unfold stack_traits_number.to lua_tonumber
    rw [h]
    rfl

/-- C10 (witness): pulling a boolean slot through the 32-bit signed integral
and the `lua_Number` traits yields `0`. -/
theorem pull_nonnumeric_zero_witness :
    stack_traits_integral.to true 32 [LuaValue.boolean true] 1 = 0 ∧
      stack_traits_number.to [LuaValue.boolean true] 1 = 0 :=
  pull_nonnumeric_zero true 32 [LuaValue.boolean true] 1 (by omega) rfl

/-
  C8: the debug field-selector encoder.
-/

set_option maxRecDepth 16384 in
/-- C8: for every composition of `info_field` mask values (every mask over
the nine named bits), the encoded query string is exactly the codes of the
requested fields in the fixed canonical order `>`, `f`, `l`, `n`, `r`,
`S`, `t`, `u`, `L`; each requested field's code occurs exactly once, no
unrequested field's code occurs, and the string plus its NUL terminator
fits the bound of nine distinct fields plus one terminator. -/
theorem info_field_string_spec :
    ∀ fields : Nat, fields < 512 →
      info_query fields =
          (fieldTable.filter (fun p => check_field fields p.1)).map Prod.snd ∧
        (∀ p ∈ fieldTable, (info_query fields).count p.2 =
          if check_field fields p.1 then 1 else 0) ∧
        (info_query fields).length + 1 ≤ 10 := by
  decide

/-- C8 (witness): the mask requesting name (`n`) and current line (`l`)
encodes to the two-character string `"ln"` in canonical order. -/
theorem info_field_string_spec_witness :
    info_query 12 = (fieldTable.filter (fun p => check_field 12 p.1)).map Prod.snd ∧
      (∀ p ∈ fieldTable, (info_query 12).count p.2 =
        if check_field 12 p.1 then 1 else 0) ∧
      (info_query 12).length + 1 ≤ 10 :=
  info_field_string_spec 12 (by omega)

/-
  C9: getfunction.
-/

/-- C9: `getfunction` reports `false` when retrieving the stack level
fails, and whenever it reports `false` — for either of its two failure
returns — the value stack is exactly what it was before the call (the
`lua_getinfo` step, invoked with the encoder's `"f"` query, cannot itself
fail: every character of that query is a valid option). -/
theorem getfunction_fail_clean (frames : List Nat) (level : Int) (st : Stack) :
    (lua_getstack frames level = none → getfunction frames level st = (false, st)) ∧
      ((getfunction frames level st).1 = false → (getfunction frames level st).2 = st) := by
  cases h : lua_getstack frames level with
  | none =>
    constructor
    · intro _
      simp [getfunction, getstack, h]
    · intro _
      simp [getfunction, getstack, h]
  | some fid =>
    have hvalid : (info_query 2).all infoFieldValidChar = true := by decide
    constructor
    · intro hc
      exact absurd hc (by simp)
    · intro hfail
      exfalso
      rw [show getfunction frames level st =
          (true, (getinfo_fields st 2 (debug_info.mk (some fid))).2) from ?_] at hfail
      · simp at hfail
      · simp [getfunction, getstack, h, getinfo_fields, lua_getinfo, hvalid]

/-- C9 (witness): with no active frame, level 0 has no stack level;
`getfunction` reports `false` and hands back the untouched stack. -/
theorem getfunction_fail_clean_witness : getfunction [] 0 [] = (false, []) :=
  (getfunction_fail_clean [] 0 []).1 rfl

/-
  C1 / C2 / C6: the table iteration protocol.
-/

theorem not_mem_of_nodup_append_cons {α : Type _} (a : α) (B : List α) :
    ∀ A : List α, (A ++ a :: B).Nodup → a ∉ A := by
  intro A
  induction A with
  | nil => intro _ h; cases h
  | cons x A ih =>
    intro h ha
    rw [List.cons_append, List.nodup_cons] at h
    rcases List.mem_cons.mp ha with h1 | h1
    · subst h1
      exact h.1 (List.mem_append_right A (List.mem_cons_self a B))
    · exact ih h.2 h1

theorem findNext_eq (k v0 : LuaValue) (rest : Table) :
    ∀ pre0 : Table, (∀ p ∈ pre0, p.1 ≠ k) →
      findNext (pre0 ++ (k, v0) :: rest) k = rest.head? := by
  intro pre0
  induction pre0 with
  | nil =>
    intro _
    simp [findNext]
  | cons p pre ih =>
    intro h
    have hp : p.1 ≠ k := h p (List.mem_cons_self p pre)
    simp only [List.cons_append, findNext]
    rw [if_neg hp]
    exact ih (fun q hq => h q (List.mem_cons_of_mem p hq))

/-- When `k` is the current key (`nil` before the first advance, or the key
of the last pair already visited) of a table with distinct non-`nil` keys,
the advance primitive's successor lookup yields exactly the head of the
unvisited remainder. -/
theorem nextPair_eq_head? (tbl pre rest : Table) (k : LuaValue)
    (htbl : pre ++ rest = tbl)
    (hnodup : (tbl.map Prod.fst).Nodup)
    (hnonil : LuaValue.nil ∉ tbl.map Prod.fst)
    (hcur : (pre = [] ∧ k = LuaValue.nil) ∨ ∃ pre0 v0, pre = pre0 ++ [(k, v0)]) :
    nextPair tbl k = rest.head? := by
  rcases hcur with ⟨hpre, hk⟩ | ⟨pre0, v0, hpre⟩
  · subst hpre hk htbl
    simp [nextPair]
  · subst hpre htbl
    have hkmem : k ∈ ((pre0 ++ [(k, v0)]) ++ rest).map Prod.fst := by simp
    have hknil : k ≠ LuaValue.nil := by
      intro hk
      subst hk
      exact hnonil hkmem
    have hnd : ((pre0.map Prod.fst) ++ k :: (rest.map Prod.fst)).Nodup := by
      simpa using hnodup
    have hnm := not_mem_of_nodup_append_cons k (rest.map Prod.fst) (pre0.map Prod.fst) hnd
    have hpre0 : ∀ p ∈ pre0, p.1 ≠ k := by
      intro p hp hpk
      exact hnm (by rw [← hpk]; exact List.mem_map_of_mem Prod.fst hp)
    have htbl2 : (pre0 ++ [(k, v0)]) ++ rest = pre0 ++ (k, v0) :: rest := by simp
    rw [htbl2]
    unfold nextPair
    rw [if_neg hknil]
    exact findNext_eq k v0 rest pre0 hpre0

theorem lua_next_concat_none (tbl : Table) (acc : Stack) (k : LuaValue)
    (h : nextPair tbl k = none) : lua_next tbl (acc ++ [k]) = (false, acc) := by
  simp only [lua_next]
  have h1 : (acc ++ [k]).length - 1 = acc.length := by simp
  rw [h1, getD_len_concat acc k [] LuaValue.nil, take_len_concat acc [k], h]

theorem lua_next_concat_some (tbl : Table) (acc : Stack) (k : LuaValue)
    (kv : LuaValue × LuaValue) (h : nextPair tbl k = some kv) :
    lua_next tbl (acc ++ [k]) = (true, acc ++ [kv.1, kv.2]) := by
  simp only [lua_next]
  have h1 : (acc ++ [k]).length - 1 = acc.length := by simp
  rw [h1, getD_len_concat acc k [] LuaValue.nil, take_len_concat acc [k], h]

/-- The loop body, entered with the advanced stack `acc ++ [k, v]` (key at
depth `|acc| + 1`, value on top), when the callback's net stack effect is
to append `ex` above the value: the value is removed, the key ends on top
of the stack — the position the next advance requires — and the appended
`ex` stays on the stack beneath it. -/
theorem foreachBody_concat {σ : Type _} (cb : σ → Stack → Nat → Nat → σ × Stack)
    (s : σ) (acc : Stack) (k v : LuaValue) (ex : Stack)
    (hex : (cb s (acc ++ [k, v]) (acc.length + 1) (acc.length + 2)).2 = (acc ++ [k, v]) ++ ex) :
    foreachBody cb s (acc ++ [k, v]) =
      ((cb s (acc ++ [k, v]) (acc.length + 1) (acc.length + 2)).1, (acc ++ ex) ++ [k]) := by
  have htop : top (acc ++ [k, v]) = acc.length + 2 := by simp [top]
  simp only [foreachBody, htop]
  have hidx : acc.length + 2 - 1 = acc.length + 1 := rfl
  rw [hidx, hex]
  have hrm : remove ((acc ++ [k, v]) ++ ex) (acc.length + 2) = acc ++ k :: ex := by
    simpa using remove_mid2 acc k v ex
  rw [hrm]
  rcases ex with _ | ⟨e, ex'⟩
  · simp [top]
  · rw [if_pos (by simp [top])]
    have hslot : slot (acc ++ k :: e :: ex') (acc.length + 1) = k := by
      simp only [slot]
      have h2 : acc.length + 1 - 1 = acc.length := rfl
      rw [h2]
      exact getD_len_concat acc k (e :: ex') LuaValue.nil
    have hcopy : copy (acc ++ k :: e :: ex') (acc.length + 1) = acc ++ k :: (e :: (ex' ++ [k])) := by
      simp [copy, push, hslot]
    rw [hcopy, remove_mid acc k (e :: (ex' ++ [k]))]
    simp

/-- One specification step of `runPairs`, with the callback's net append
made explicit. -/
theorem runPairs_cons {σ : Type _} (cb : σ → Stack → Nat → Nat → σ × Stack)
    (s : σ) (acc : Stack) (k1 v1 : LuaValue) (rest : Table) (ex : Stack)
    (hex : (cb s (acc ++ [k1, v1]) (acc.length + 1) (acc.length + 2)).2 =
      (acc ++ [k1, v1]) ++ ex) :
    runPairs cb s acc ((k1, v1) :: rest) =
      runPairs cb ((cb s (acc ++ [k1, v1]) (acc.length + 1) (acc.length + 2)).1)
        (acc ++ ex) rest := by
  have hlen : (acc ++ [k1, v1]).length = acc.length + 2 := by simp
  simp only [runPairs, hlen]
  have hidx : acc.length + 2 - 1 = acc.length + 1 := rfl
  rw [hidx, hex]
  have hdrop : ((acc ++ [k1, v1]) ++ ex).drop (acc.length + 2) = ex := by
    simpa using drop_mid2 acc k1 v1 ex
  rw [hdrop]

/-- The master correspondence: started at the current key `k` with `rest`
still unvisited and the table's keys distinct and non-`nil`, the source's
traversal loop computes exactly the specification recursion `runPairs` over
`rest`, for any callback whose net stack effect above the handed value
position is to append values. -/
theorem foreachLoop_eq_runPairs {σ : Type _} (tbl : Table)
    (cb : σ → Stack → Nat → Nat → σ × Stack)
    (hcb : ∀ s st k v, ∃ ex, (cb s st k v).2 = st ++ ex)
    (hnodup : (tbl.map Prod.fst).Nodup)
    (hnonil : LuaValue.nil ∉ tbl.map Prod.fst) :
    ∀ (rest pre : Table) (k : LuaValue), pre ++ rest = tbl →
      ((pre = [] ∧ k = LuaValue.nil) ∨ ∃ pre0 v0, pre = pre0 ++ [(k, v0)]) →
      ∀ fuel : Nat, rest.length < fuel →
      ∀ (s : σ) (acc : Stack),
        foreachLoop tbl cb fuel s (acc ++ [k]) = runPairs cb s acc rest := by
  intro rest
  induction rest with
  | nil =>
    intro pre k htbl hcur fuel hfuel s acc
    obtain ⟨f, rfl⟩ : ∃ f, fuel = f + 1 := ⟨fuel - 1, by omega⟩
    have hnp : nextPair tbl k = none := by
      simpa using nextPair_eq_head? tbl pre [] k htbl hnodup hnonil hcur
    have hnext := lua_next_concat_none tbl acc k hnp
    simp [foreachLoop, hnext, runPairs]
  | cons kv rest ih =>
    intro pre k htbl hcur fuel hfuel s acc
    obtain ⟨k1, v1⟩ := kv
    obtain ⟨f, rfl⟩ : ∃ f, fuel = f + 1 := ⟨fuel - 1, by omega⟩
    have hfuel2 : rest.length < f := by
      simp only [List.length_cons] at hfuel
      omega
    have hnp : nextPair tbl k = some (k1, v1) := by
      simpa using nextPair_eq_head? tbl pre ((k1, v1) :: rest) k htbl hnodup hnonil hcur
    have hnext := lua_next_concat_some tbl acc k (k1, v1) hnp
    obtain ⟨ex, hex⟩ := hcb s (acc ++ [k1, v1]) (acc.length + 1) (acc.length + 2)
    have hbody := foreachBody_concat cb s acc k1 v1 ex hex
    have hstep : foreachLoop tbl cb (f + 1) s (acc ++ [k]) =
        foreachLoop tbl cb f (foreachBody cb s (acc ++ [k1, v1])).1
          (foreachBody cb s (acc ++ [k1, v1])).2 := by
      simp [foreachLoop, hnext]
    have hIH := ih (pre ++ [(k1, v1)]) k1 (by rw [← htbl]; simp)
      (Or.inr ⟨pre, v1, rfl⟩) f hfuel2
      ((cb s (acc ++ [k1, v1]) (acc.length + 1) (acc.length + 2)).1) (acc ++ ex)
    rw [hstep, hbody, runPairs_cons cb s acc k1 v1 rest ex hex]
    exact hIH

theorem runPairs_snd_neutral {σ : Type _} (cb : σ → Stack → Nat → Nat → σ × Stack)
    (hneutral : ∀ s st k v, (cb s st k v).2 = st) :
    ∀ (rest : Table) (s : σ) (acc : Stack), (runPairs cb s acc rest).2 = acc := by
  intro rest
  induction rest with
  | nil => intro s acc; rfl
  | cons kv rest ih =>
    intro s acc
    simp only [runPairs, hneutral, List.drop_length, List.append_nil]
    exact ih _ acc

theorem runPairs_logCb {σ : Type _} (cb : σ → Stack → Nat → Nat → σ × Stack) :
    ∀ (rest : Table) (s : σ) (L : Table) (acc : Stack),
      ((runPairs (logCb cb) (s, L) acc rest).1).2 = L ++ rest := by
  intro rest
  induction rest with
  | nil => intro s L acc; simp [runPairs]
  | cons kv rest ih =>
    intro s L acc
    obtain ⟨k1, v1⟩ := kv
    have hlen : (acc ++ [k1, v1]).length = acc.length + 2 := by simp
    have hs1 : slot (acc ++ [k1, v1]) (acc.length + 2 - 1) = k1 := by
      simp only [slot]
      have h2 : acc.length + 2 - 1 - 1 = acc.length := rfl
      rw [h2]
      exact getD_len_concat acc k1 [v1] LuaValue.nil
    have hs2 : slot (acc ++ [k1, v1]) (acc.length + 2) = v1 := by
      simp only [slot]
      have h2 : acc.length + 2 - 1 = acc.length + 1 := rfl
      rw [h2]
      exact getD_len_concat2 acc k1 v1 [] LuaValue.nil
    simp only [runPairs, logCb, hlen, hs1, hs2]
    rw [ih]
    simp

/-- C6: on a table with `N` pairs (distinct non-`nil` keys, as Lua tables
have) the protocol invokes the callback exactly `N` times, once per pair in
traversal order with no pair repeated or skipped, handing it the stack
positions at which that pair's key and value sit; an empty table yields
zero invocations.  The trace recorded by the instrumented callback is
exactly the table's pair list.  The callback may push scratch values (any
net append above the value position) without affecting the trace. -/
theorem foreach_invokes_each_pair_once {σ : Type _} (tbl : Table)
    (cb : σ → Stack → Nat → Nat → σ × Stack)
    (hnodup : (tbl.map Prod.fst).Nodup)
    (hnonil : LuaValue.nil ∉ tbl.map Prod.fst)
    (hcb : ∀ s st k v, ∃ ex, (cb s st k v).2 = st ++ ex)
    (s : σ) (st0 : Stack) :
    ((foreach_pair_in_table tbl (logCb cb) (s, []) st0).1).2 = tbl := by
  have hcb2 : ∀ p st k v, ∃ ex, (logCb cb p st k v).2 = st ++ ex := by
    intro p st k v
    obtain ⟨ex, hex⟩ := hcb p.1 st k v
    exact ⟨ex, hex⟩
  have h := foreachLoop_eq_runPairs tbl (logCb cb) hcb2 hnodup hnonil tbl [] LuaValue.nil rfl
    (Or.inl ⟨rfl, rfl⟩) (tbl.length + 1) (by omega) (s, []) st0
  unfold foreach_pair_in_table
  rw [show push st0 LuaValue.nil = st0 ++ [LuaValue.nil] from rfl, h]
  simpa using runPairs_logCb cb tbl s [] st0

/-- C6 (witness): a two-pair table is traversed with exactly its two pairs
observed, in order. -/
theorem foreach_invokes_each_pair_once_witness :
    ((foreach_pair_in_table
          [(LuaValue.integer 1, LuaValue.integer 10), (LuaValue.integer 2, LuaValue.integer 20)]
          (logCb (fun (s : Unit) (st : Stack) (_ _ : Nat) => (s, st))) ((), [])
          [LuaValue.table 0]).1).2 =
      [(LuaValue.integer 1, LuaValue.integer 10), (LuaValue.integer 2, LuaValue.integer 20)] :=
  foreach_invokes_each_pair_once _ _ (by decide) (by decide)
    (fun s st k v => ⟨[], by simp⟩) () [LuaValue.table 0]

/-- C1 (counterexample): a callback that pushes one extra value without
popping it.  The protocol does not remove the extra value — it stays on the
stack below the restored key — so the stack depth after
`foreach_pair_in_table` returns differs from the depth before the call. -/
theorem foreach_depth_counterexample :
    ((foreach_pair_in_table [(LuaValue.integer 1, LuaValue.integer 2)]
          (fun (s : Unit) (st : Stack) (_ _ : Nat) => (s, push st LuaValue.nil)) ()
          [LuaValue.table 0]).2).length ≠ ([LuaValue.table 0] : Stack).length := by
  decide

/-- C1 (amended): the stack depth after `foreach_pair_in_table` equals the
depth before the call whenever every callback invocation leaves the stack
exactly as it found it (scratch values pushed and popped symmetrically);
values a callback pushes without popping are not removed by the protocol —
as the counterexample shows, they are left on the stack below the restored
key and accumulate, raising the final depth by the total number of leftover
values. -/
theorem foreach_depth_neutral {σ : Type _} (tbl : Table)
    (cb : σ → Stack → Nat → Nat → σ × Stack)
    (hnodup : (tbl.map Prod.fst).Nodup)
    (hnonil : LuaValue.nil ∉ tbl.map Prod.fst)
    (hneutral : ∀ s st k v, (cb s st k v).2 = st)
    (s : σ) (st0 : Stack) :
    (foreach_pair_in_table tbl cb s st0).2 = st0 := by
  have hcb : ∀ s st k v, ∃ ex, (cb s st k v).2 = st ++ ex := by
    intro s st k v
    exact ⟨[], by simp [hneutral]⟩
  have h := foreachLoop_eq_runPairs tbl cb hcb hnodup hnonil tbl [] LuaValue.nil rfl
    (Or.inl ⟨rfl, rfl⟩) (tbl.length + 1) (by omega) s st0
  unfold foreach_pair_in_table
  rw [show push st0 LuaValue.nil = st0 ++ [LuaValue.nil] from rfl, h]
  exact runPairs_snd_neutral cb hneutral tbl s st0

/-- C1 (witness): a stack-neutral callback over a one-pair table leaves the
stack exactly as it was. -/
theorem foreach_depth_neutral_witness :
    (foreach_pair_in_table [(LuaValue.integer 1, LuaValue.integer 10)]
        (fun (s : Unit) (st : Stack) (_ _ : Nat) => (s, st)) () [LuaValue.table 0]).2 =
      [LuaValue.table 0] :=
  foreach_depth_neutral _ _ (by decide) (by decide) (fun s st k v => rfl) () [LuaValue.table 0]

/-- C2 (counterexample): the key was produced at depth `N = 1` (stack
`[key, value]`, nothing below).  A callback that pushes one extra value
without popping — and never touches the key slot — leaves the protocol
restoring the key to the *top* of the stack, above the retained extra
value: the stack handed to the next advance is `[extra, key]`, not the
claimed single key at depth `N`. -/
theorem foreach_key_restore_counterexample :
    foreachBody (fun (s : Unit) (st : Stack) (_ _ : Nat) => (s, push st (LuaValue.boolean true)))
        () [LuaValue.integer 1, LuaValue.integer 2] =
      ((), [LuaValue.boolean true, LuaValue.integer 1]) ∧
      ([LuaValue.boolean true, LuaValue.integer 1] : Stack) ≠ [LuaValue.integer 1] := by
  exact ⟨by decide, by decide⟩

/-- C2 (amended): after a callback that does not disturb the stack up to
the value position (its net effect is appending `ex` above the value), the
protocol removes the value and restores the key to the top of the stack —
the position the advance primitive requires for the next step — copying it
up and removing the stale original whenever something sits above it.  The
key sits at its original depth `N` again only when the callback appended
nothing; any appended values remain beneath it. -/
theorem foreach_key_restored_to_top {σ : Type _} (cb : σ → Stack → Nat → Nat → σ × Stack)
    (hcb : ∀ s st k v, ∃ ex, (cb s st k v).2 = st ++ ex)
    (s : σ) (acc : Stack) (k v : LuaValue) :
    ∃ s2 ex, foreachBody cb s (acc ++ [k, v]) = (s2, (acc ++ ex) ++ [k]) := by
  obtain ⟨ex, hex⟩ := hcb s (acc ++ [k, v]) (acc.length + 1) (acc.length + 2)
  exact ⟨_, ex, foreachBody_concat cb s acc k v ex hex⟩

/-- C2 (witness): the amended restoration at a concrete one-extra-push
callback. -/
theorem foreach_key_restored_to_top_witness :
    ∃ s2 ex,
      foreachBody
          (fun (s : Unit) (st : Stack) (_ _ : Nat) => (s, push st (LuaValue.boolean true))) ()
          (([] : Stack) ++ [LuaValue.integer 1, LuaValue.integer 2]) =
        (s2, (([] : Stack) ++ ex) ++ [LuaValue.integer 1]) :=
  foreach_key_restored_to_top _ (fun s st k v => ⟨[LuaValue.boolean true], rfl⟩) () []
    (LuaValue.integer 1) (LuaValue.integer 2)

end Luacpp
